import Mathlib

/-!
Verification of the Soccer Stats Tracker record store (`Soccer.h` / `Soccer.cpp`).

The backing file is modelled as a `List Char` (the bytes of the text file).
Each operation of the `Soccer` class is translated directly from the C++:

* `displayPlayers` — the read loop of `Soccer::displayPlayers` (and the
  identical inline read loop at the start of `Soccer::updatePlayer`):
  `getline` over the file, skip lines with `line.empty()`, split each line at
  the first comma with `getline(ss, name, ',')`, and read the goal count with
  `ss >> goals` (C++ stream semantics: skip whitespace, optional sign, digits,
  value 0 on extraction failure).
* `addPlayer` — `Soccer::addPlayer`: append `name << "," << goals << "\n"`.
* `updatePlayer` — `Soccer::updatePlayer`: read all records, update every
  record whose name matches (else push a new one), then `seekp(0)` and rewrite
  the lines over the old content.  The stream is NOT truncated, so bytes of a
  previously longer file beyond the rewritten content survive; this is modelled
  by `overwriteNoTrunc`.
* `ensureFileExists` — `Soccer::ensureFileExists`: if the file is absent,
  create it with the three seed records.
-/

namespace Soccer

/-- One player record, the `pair<string, int>` of `Soccer::updatePlayer`
(name before the comma, goal count after it).  The goal count is a C++ `int`;
no claim involves values near the width bound, so it is modelled as `Int`. -/
structure Record where
  name : List Char
  goals : Int
deriving DecidableEq, Repr

/-- The whitespace class of `operator>>` (C locale `isspace`):
space, tab, newline, vertical tab, form feed, carriage return. -/
def isSpace (c : Char) : Bool := c.toNat = 32 || (9 ≤ c.toNat && c.toNat ≤ 13)

/-- Decimal digit characters `'0'`–`'9'`. -/
def isDigit (c : Char) : Bool := 48 ≤ c.toNat && c.toNat ≤ 57

/-- Numeric value of a digit character. -/
def digitVal (c : Char) : Nat := c.toNat - 48

/-- The value accumulated by reading decimal digit characters left to right. -/
def digitsVal (ds : List Char) : Nat := ds.foldl (fun a c => 10 * a + digitVal c) 0

/-- `getline` semantics: split the file content into lines at `'\n'`
(the terminator is consumed and not stored; a final segment without a
terminator is still a line; at end of file `getline` fails, so content
ending in `'\n'` yields no extra empty line). -/
def splitLines : List Char → List (List Char)
  | [] => []
  | c :: rest =>
    if c = '\n' then [] :: splitLines rest
    else
      match splitLines rest with
      | [] => [[c]]
      | l :: ls => (c :: l) :: ls

/-- `ss >> goals` after the whitespace skip: optional sign, then the leading
run of digits; on failure (no digits) the C++11 extraction stores 0. -/
def parseSigned (l : List Char) : Int :=
  match l with
  | [] => 0
  | c :: rest =>
    if c = '-' then
      let ds := rest.takeWhile isDigit
      if ds.isEmpty then 0 else -(digitsVal ds : Int)
    else if c = '+' then
      let ds := rest.takeWhile isDigit
      if ds.isEmpty then 0 else (digitsVal ds : Int)
    else
      let ds := l.takeWhile isDigit
      if ds.isEmpty then 0 else (digitsVal ds : Int)

/-- Full `ss >> goals` semantics: skip leading whitespace, then `parseSigned`. -/
def parseIntStream (l : List Char) : Int := parseSigned (l.dropWhile isSpace)

/-- `getline(ss, name, ',')`: the name is everything before the first comma
(the whole line when no comma occurs). -/
def nameOfLine (l : List Char) : List Char := l.takeWhile (fun c => c ≠ ',')

/-- The remainder handed to `ss >> goals`: everything after the first comma
(empty when no comma occurs, in which case the extraction fails and yields 0). -/
def restOfLine (l : List Char) : List Char := ((l.dropWhile (fun c => c ≠ ',')).drop 1)

/-- Parsing of one non-empty line, as done identically in
`Soccer::displayPlayers` and `Soccer::updatePlayer`. -/
def parseLine (l : List Char) : Record := ⟨nameOfLine l, parseIntStream (restOfLine l)⟩

/-- The records produced by the read loop of `Soccer::displayPlayers`
(also the in-memory vector built by `Soccer::updatePlayer`): read line by
line, `continue` on `line.empty()`, parse the rest. -/
def displayPlayers (content : List Char) : List Record :=
  ((splitLines content).filter (fun l => !l.isEmpty)).map parseLine

/-- Fuel-driven most-significant-first decimal digits of a natural number
(empty for 0); fuel `n` suffices since the argument shrinks by `/ 10`. -/
def natDigitsAux : Nat → Nat → List Char
  | 0, _ => []
  | fuel + 1, n =>
    if n = 0 then []
    else natDigitsAux fuel (n / 10) ++ [digitChar (n % 10)]
where
  /-- The character for one decimal digit. -/
  digitChar : Nat → Char
    | 0 => '0' | 1 => '1' | 2 => '2' | 3 => '3' | 4 => '4'
    | 5 => '5' | 6 => '6' | 7 => '7' | 8 => '8' | _ => '9'

/-- Decimal rendering of a natural number, as `operator<<` prints it. -/
def natToChars (n : Nat) : List Char := if n = 0 then ['0'] else natDigitsAux n n

/-- Decimal rendering of a C++ `int` by `operator<<`: optional leading minus,
then the digits of the magnitude. -/
def intToChars (i : Int) : List Char :=
  if i < 0 then '-' :: natToChars i.natAbs else natToChars i.toNat

/-- The line written for one record: `file << name << "," << goals << "\n"`. -/
def serializeRec (r : Record) : List Char :=
  r.name ++ [','] ++ intToChars r.goals ++ ['\n']

/-- The content written by the rewrite loop of `Soccer::updatePlayer`
(one `serializeRec` line per record, in order). -/
def serializeAll : List Record → List Char
  | [] => []
  | r :: rs => serializeRec r ++ serializeAll rs

/-- `Soccer::addPlayer`: open in `ios::app` mode and write one record line
strictly after all existing bytes. -/
def addPlayer (content : List Char) (name : List Char) (goals : Int) : List Char :=
  content ++ serializeRec ⟨name, goals⟩

/-- Repeated `addPlayer`, one call per record. -/
def appendAll (content : List Char) (recs : List Record) : List Char :=
  recs.foldl (fun acc r => addPlayer acc r.name r.goals) content

/-- The update pass of `Soccer::updatePlayer`: for every record whose name
equals the target, set its goal count (`p.second = newGoals`). -/
def updateAll (recs : List Record) (name : List Char) (g : Int) : List Record :=
  recs.map (fun r => if r.name = name then { r with goals := g } else r)

/-- The `found` flag of `Soccer::updatePlayer`: some record's name matched. -/
def foundIn (recs : List Record) (name : List Char) : Bool :=
  recs.any (fun r => r.name = name)

/-- Steps 2 of `Soccer::updatePlayer` on the in-memory vector: update all
matches; if none matched, push the new record at the end. -/
def upsertRecs (recs : List Record) (name : List Char) (g : Int) : List Record :=
  if foundIn recs name then updateAll recs name g
  else updateAll recs name g ++ [⟨name, g⟩]

/-- Writing `new` from position 0 over a file previously holding `old`,
without truncation: bytes of `old` beyond `new.length` survive.  This is the
effect of `seekp(0, ios::beg)` followed by the rewrite loop (the `fstream` is
never truncated). -/
def overwriteNoTrunc (old new : List Char) : List Char :=
  new ++ old.drop new.length

/-- `Soccer::updatePlayer` end to end on the file content: read all records,
upsert in memory, seek to the start and rewrite without truncation. -/
def updatePlayer (content : List Char) (name : List Char) (g : Int) : List Char :=
  overwriteNoTrunc content (serializeAll (upsertRecs (displayPlayers content) name g))

/-- The user-facing outcome of `Soccer::updatePlayer`: `true` when the
"Updated ..." branch runs, `false` when the "not found — adding" branch runs. -/
def upsertOutcomeUpdated (content : List Char) (name : List Char) : Bool :=
  foundIn (displayPlayers content) name

/-- The three seed lines written by `Soccer::ensureFileExists`. -/
def seedContent : List Char := ("Messi,12\nRapinoe,9\nRonaldo,10\n").data

/-- `Soccer::ensureFileExists`: if the file cannot be opened for reading
(`none` — absent), create it with the seed records; otherwise leave it alone. -/
def ensureFileExists : Option (List Char) → Option (List Char)
  | none => some seedContent
  | some c => some c

/-- A backing medium together with whether streams on it open successfully
(the `if (!in) { ... return; }` guards). -/
structure Medium where
  openable : Bool
  content : List Char
deriving DecidableEq, Repr

/-- `Soccer::displayPlayers` with its open-failure guard: on failure it
reports the error and returns having displayed no records. -/
def listOp (m : Medium) : Bool × List Record :=
  if m.openable then (true, displayPlayers m.content) else (false, [])

/-- `Soccer::addPlayer` with its open-failure guard: on failure it reports
the error and leaves the medium untouched. -/
def addOp (m : Medium) (name : List Char) (g : Int) : Bool × Medium :=
  if m.openable then (true, ⟨true, addPlayer m.content name g⟩) else (false, m)

/-- `Soccer::updatePlayer` with its open-failure guard: on failure it reports
the error and leaves the medium untouched. -/
def updateOp (m : Medium) (name : List Char) (g : Int) : Bool × Medium :=
  if m.openable then (true, ⟨true, updatePlayer m.content name g⟩) else (false, m)

/-- File content produced by the program always ends in a newline. -/
def nlTerminated : List Char → Bool
  | [] => true
  | [c] => c = '\n'
  | _ :: rest => nlTerminated rest

/-- A file whose lines are exactly `ls`, each terminated by a newline. -/
def joinLines : List (List Char) → List Char
  | [] => []
  | l :: ls => l ++ '\n' :: joinLines ls

/-! ### Character facts -/

/-- A digit character is not whitespace. -/
theorem isDigit_not_isSpace {c : Char} (h : isDigit c = true) : isSpace c = false := by
  simp only [isDigit, Bool.and_eq_true, decide_eq_true_eq] at h
  rw [Bool.eq_false_iff]
  intro hs
  simp only [isSpace, Bool.or_eq_true, Bool.and_eq_true, decide_eq_true_eq] at hs
  omega

/-- A digit character is not the minus sign. -/
theorem isDigit_ne_minus {c : Char} (h : isDigit c = true) : c ≠ '-' := by
  intro hc; subst hc; exact absurd h (by decide)

/-- A digit character is not the plus sign. -/
theorem isDigit_ne_plus {c : Char} (h : isDigit c = true) : c ≠ '+' := by
  intro hc; subst hc; exact absurd h (by decide)

/-- A digit character is not a newline. -/
theorem isDigit_ne_newline {c : Char} (h : isDigit c = true) : c ≠ '\n' := by
  intro hc; subst hc; exact absurd h (by decide)

/-! ### takeWhile / dropWhile facts -/

theorem takeWhile_append_all {p : Char → Bool} :
    ∀ (l rest : List Char), (∀ a ∈ l, p a = true) →
      (∀ a, rest.head? = some a → p a = false) →
      (l ++ rest).takeWhile p = l := by
  intro l rest h1 h2
  induction l with
  | nil =>
    cases rest with
    | nil => rfl
    | cons a t => simp [List.takeWhile, h2 a rfl]
  | cons a t ih =>
    have ha : p a = true := h1 a (List.mem_cons_self a t)
    simp only [List.cons_append, List.takeWhile, ha, List.append_eq]
    rw [ih (fun x hx => h1 x (List.mem_cons_of_mem a hx))]

theorem dropWhile_append_all {p : Char → Bool} :
    ∀ (l rest : List Char), (∀ a ∈ l, p a = true) →
      (l ++ rest).dropWhile p = rest.dropWhile p := by
  intro l rest h1
  induction l with
  | nil => rfl
  | cons a t ih =>
    have ha : p a = true := h1 a (List.mem_cons_self a t)
    simp only [List.cons_append, List.dropWhile, ha, List.append_eq]
    exact ih (fun x hx => h1 x (List.mem_cons_of_mem a hx))

theorem mem_of_mem_takeWhile {p : Char → Bool} :
    ∀ {l : List Char} {a : Char}, a ∈ l.takeWhile p → p a = true ∧ a ∈ l := by
  intro l
  induction l with
  | nil => intro a h; simp [List.takeWhile] at h
  | cons b t ih =>
    intro a h
    by_cases hb : p b = true
    · simp only [List.takeWhile, hb] at h
      rcases List.mem_cons.mp h with h | h
      · subst h; exact ⟨hb, List.mem_cons_self a t⟩
      · rcases ih h with ⟨h1, h2⟩
        exact ⟨h1, List.mem_cons_of_mem b h2⟩
    · simp only [List.takeWhile, Bool.not_eq_true] at hb
      simp [List.takeWhile, hb] at h

/-! ### splitLines facts -/

theorem splitLines_ne_nil : ∀ {c : List Char}, c ≠ [] → splitLines c ≠ [] := by
  intro c h
  cases c with
  | nil => exact absurd rfl h
  | cons a t =>
    simp only [splitLines]
    by_cases ha : a = '\n'
    · simp [ha]
    · simp only [if_neg ha]
      cases splitLines t <;> simp

/-- Unfolding of `splitLines` at a newline. -/
theorem splitLines_newline_cons (t : List Char) : splitLines ('\n' :: t) = [] :: splitLines t := by
  simp [splitLines]

/-- Unfolding of `splitLines` at a non-newline character. -/
theorem splitLines_cons_of_ne (a : Char) (t : List Char) (ha : a ≠ '\n') :
    splitLines (a :: t) =
      match splitLines t with
      | [] => [[a]]
      | l :: ls => (a :: l) :: ls := by
  simp only [splitLines, if_neg ha]

/-- Reading a line with no embedded newline followed by its terminator. -/
theorem splitLines_line :
    ∀ (l : List Char), '\n' ∉ l → ∀ rest, splitLines (l ++ '\n' :: rest) = l :: splitLines rest := by
  intro l
  induction l with
  | nil => intro _ rest; simp [splitLines]
  | cons a t ih =>
    intro h rest
    have ha : a ≠ '\n' := fun hc => h (hc ▸ List.mem_cons_self a t)
    have ht : '\n' ∉ t := fun hm => h (List.mem_cons_of_mem a hm)
    rw [List.cons_append, splitLines_cons_of_ne a _ ha, ih ht rest]

/-- Splitting distributes over appending to newline-terminated content. -/
theorem splitLines_append_of_nlTerminated :
    ∀ (c s : List Char), nlTerminated c = true →
      splitLines (c ++ s) = splitLines c ++ splitLines s := by
  intro c
  induction c with
  | nil => intro s _; rfl
  | cons a t ih =>
    intro s h
    cases t with
    | nil =>
      have ha : a = '\n' := of_decide_eq_true h
      subst ha
      simp [splitLines]
    | cons b t' =>
      have ht : nlTerminated (b :: t') = true := h
      by_cases ha : a = '\n'
      · subst ha
        rw [List.cons_append, splitLines_newline_cons, splitLines_newline_cons,
          ih s ht, List.cons_append]
      · rw [List.cons_append, splitLines_cons_of_ne a _ ha, splitLines_cons_of_ne a _ ha,
          ih s ht]
        cases hsp : splitLines (b :: t') with
        | nil => exact absurd hsp (splitLines_ne_nil (by simp))
        | cons l0 ls => simp

/-- Lines produced by `splitLines` never contain a newline. -/
theorem no_newline_mem_splitLines :
    ∀ {c l : List Char}, l ∈ splitLines c → '\n' ∉ l := by
  intro c
  induction c with
  | nil => intro l h; simp [splitLines] at h
  | cons a t ih =>
    intro l h
    by_cases ha : a = '\n'
    · subst ha
      rw [splitLines_newline_cons] at h
      rcases List.mem_cons.mp h with h | h
      · subst h; simp
      · exact ih h
    · simp only [splitLines, if_neg ha] at h
      cases hsp : splitLines t with
      | nil =>
        rw [hsp] at h
        simp only [List.mem_singleton] at h
        subst h
        intro hm
        rcases List.mem_cons.mp hm with hm | hm
        · exact ha hm.symm
        · simp at hm
      | cons l0 ls =>
        rw [hsp] at h
        rcases List.mem_cons.mp h with h | h
        · subst h
          intro hm
          rcases List.mem_cons.mp hm with hm | hm
          · exact ha hm.symm
          · exact ih (hsp ▸ List.mem_cons_self l0 ls) hm
        · exact ih (hsp ▸ List.mem_cons_of_mem l0 h)

/-! ### Decimal formatting and stream parsing facts -/

theorem isEmpty_false_of_ne_nil {l : List Char} (h : l ≠ []) : l.isEmpty = false := by
  cases l with
  | nil => exact absurd rfl h
  | cons a t => rfl

theorem digitsVal_append_single (ds : List Char) (c : Char) :
    digitsVal (ds ++ [c]) = 10 * digitsVal ds + digitVal c := by
  simp [digitsVal, List.foldl_append]

theorem natDigitsAux_zero : ∀ fuel, natDigitsAux fuel 0 = [] := by
  intro fuel; cases fuel <;> simp [natDigitsAux]

theorem digitChar_spec : ∀ d, d < 10 →
    isDigit (natDigitsAux.digitChar d) = true ∧ digitVal (natDigitsAux.digitChar d) = d := by
  intro d h
  interval_cases d <;> exact ⟨by decide, by decide⟩

theorem natDigitsAux_spec :
    ∀ (fuel n : Nat), 0 < n → n ≤ fuel →
      natDigitsAux fuel n ≠ [] ∧ (∀ c ∈ natDigitsAux fuel n, isDigit c = true) ∧
        digitsVal (natDigitsAux fuel n) = n := by
  intro fuel
  induction fuel with
  | zero => intro n h1 h2; omega
  | succ fuel ih =>
    intro n h1 h2
    have hn : n ≠ 0 := Nat.pos_iff_ne_zero.mp h1
    simp only [natDigitsAux, if_neg hn]
    have hd : n % 10 < 10 := Nat.mod_lt _ (by norm_num)
    obtain ⟨hdig, hdval⟩ := digitChar_spec _ hd
    by_cases h10 : n / 10 = 0
    · rw [h10, natDigitsAux_zero, List.nil_append]
      refine ⟨by simp, ?_, ?_⟩
      · intro c hc
        simp only [List.mem_singleton] at hc
        subst hc; exact hdig
      · have hlt : n % 10 = n := by omega
        simp [digitsVal, digitVal] at hdval ⊢
        omega
    · have hlt : n / 10 < n := Nat.div_lt_self h1 (by norm_num)
      have h2' : n / 10 ≤ fuel := by omega
      obtain ⟨hne, hdigs, hval⟩ := ih (n / 10) (Nat.pos_of_ne_zero h10) h2'
      refine ⟨by simp, ?_, ?_⟩
      · intro c hc
        rcases List.mem_append.mp hc with hc | hc
        · exact hdigs c hc
        · simp only [List.mem_singleton] at hc; subst hc; exact hdig
      · rw [digitsVal_append_single, hval, hdval]
        omega

theorem natToChars_spec (n : Nat) :
    natToChars n ≠ [] ∧ (∀ c ∈ natToChars n, isDigit c = true) ∧
      digitsVal (natToChars n) = n := by
  by_cases h : n = 0
  · subst h
    refine ⟨by decide, ?_, by decide⟩
    intro c hc
    rw [show natToChars 0 = ['0'] from rfl] at hc
    simp only [List.mem_singleton] at hc
    subst hc; decide
  · simp only [natToChars, if_neg h]
    exact natDigitsAux_spec n n (Nat.pos_of_ne_zero h) (le_refl n)

theorem parseIntStream_digits (ds junk : List Char)
    (h1 : ∀ c ∈ ds, isDigit c = true) (h2 : ds ≠ [])
    (h3 : ∀ c, junk.head? = some c → isDigit c = false) :
    parseIntStream (ds ++ junk) = (digitsVal ds : Int) := by
  cases ds with
  | nil => exact absurd rfl h2
  | cons d ds' =>
    have hd : isDigit d = true := h1 d (List.mem_cons_self d ds')
    have hsp : isSpace d = false := isDigit_not_isSpace hd
    have hm : d ≠ '-' := isDigit_ne_minus hd
    have hp : d ≠ '+' := isDigit_ne_plus hd
    have hdw : ((d :: ds') ++ junk).dropWhile isSpace = (d :: ds') ++ junk := by
      simp [List.dropWhile, hsp]
    rw [parseIntStream, hdw, List.cons_append]
    simp only [parseSigned, if_neg hm, if_neg hp]
    have htw : (d :: (ds' ++ junk)).takeWhile isDigit = d :: ds' := by
      have := takeWhile_append_all (p := isDigit) (d :: ds') junk h1 h3
      rwa [List.cons_append] at this
    rw [htw, isEmpty_false_of_ne_nil (by simp)]
    simp

/-- Round trip: the digits printed for an `int` read back as the same value. -/
theorem intToChars_roundTrip (g : Int) : parseIntStream (intToChars g) = g := by
  by_cases hg : g < 0
  · rw [intToChars, if_pos hg]
    obtain ⟨hne, hdigs, hval⟩ := natToChars_spec g.natAbs
    have hsp : isSpace '-' = false := by decide
    have hdw : ('-' :: natToChars g.natAbs).dropWhile isSpace = '-' :: natToChars g.natAbs := by
      simp [List.dropWhile, hsp]
    rw [parseIntStream, hdw]
    rw [show parseSigned ('-' :: natToChars g.natAbs) =
        (if ((natToChars g.natAbs).takeWhile isDigit).isEmpty then 0
         else -(digitsVal ((natToChars g.natAbs).takeWhile isDigit) : Int)) from rfl]
    have htw : (natToChars g.natAbs).takeWhile isDigit = natToChars g.natAbs := by
      have := takeWhile_append_all (p := isDigit) (natToChars g.natAbs) [] hdigs
        (by intro c hc; simp at hc)
      simpa using this
    rw [htw, isEmpty_false_of_ne_nil hne]
    simp only [Bool.false_eq_true, if_false, hval]
    omega
  · rw [intToChars, if_neg hg]
    obtain ⟨hne, hdigs, hval⟩ := natToChars_spec g.toNat
    have key := parseIntStream_digits (natToChars g.toNat) [] hdigs hne
      (by intro c hc; simp at hc)
    rw [List.append_nil] at key
    rw [key, hval]
    omega

/-! ### Line parsing and serialization facts -/

/-- Splitting a line at its first comma: the name is what stands before it,
the goal stream reads what stands after it. -/
theorem parseLine_split (nm rest : List Char) (h : ',' ∉ nm) :
    parseLine (nm ++ ',' :: rest) = ⟨nm, parseIntStream rest⟩ := by
  have hp1 : ∀ a ∈ nm, (fun c => decide (c ≠ ',')) a = true := by
    intro a ha
    exact decide_eq_true (fun hc => h (hc ▸ ha))
  have htw : (nm ++ ',' :: rest).takeWhile (fun c => decide (c ≠ ',')) = nm :=
    takeWhile_append_all nm (',' :: rest) hp1
      (by intro c hc; rw [List.head?_cons, Option.some_inj] at hc; subst hc; decide)
  have hdw : (nm ++ ',' :: rest).dropWhile (fun c => decide (c ≠ ',')) = ',' :: rest := by
    rw [dropWhile_append_all nm (',' :: rest) hp1]
    simp [List.dropWhile]
  simp only [parseLine, nameOfLine, restOfLine, htw, hdw, List.drop_succ_cons, List.drop_zero]

/-- A comma-free line parses as itself with the default goal count 0. -/
theorem parseLine_no_comma (l : List Char) (h : ',' ∉ l) :
    parseLine l = ⟨l, 0⟩ := by
  have hp1 : ∀ a ∈ l, (fun c => decide (c ≠ ',')) a = true := by
    intro a ha
    exact decide_eq_true (fun hc => h (hc ▸ ha))
  have htw : l.takeWhile (fun c => decide (c ≠ ',')) = l := by
    have := takeWhile_append_all l [] hp1 (by intro c hc; simp at hc)
    simpa using this
  have hdw : l.dropWhile (fun c => decide (c ≠ ',')) = [] := by
    have := dropWhile_append_all l [] hp1
    simpa using this
  simp only [parseLine, nameOfLine, restOfLine, htw, hdw, List.drop_nil]
  rfl

/-- The serialized line, rearranged as body plus terminator. -/
theorem serializeRec_line (r : Record) :
    serializeRec r = (r.name ++ ',' :: intToChars r.goals) ++ ['\n'] := by
  simp [serializeRec]

theorem no_newline_intToChars (g : Int) : '\n' ∉ intToChars g := by
  intro hm
  rw [intToChars] at hm
  by_cases hg : g < 0
  · rw [if_pos hg] at hm
    rcases List.mem_cons.mp hm with hm | hm
    · exact absurd hm (by decide)
    · obtain ⟨_, hdigs, _⟩ := natToChars_spec g.natAbs
      exact absurd (hdigs _ hm) (by decide)
  · rw [if_neg hg] at hm
    obtain ⟨_, hdigs, _⟩ := natToChars_spec g.toNat
    exact absurd (hdigs _ hm) (by decide)

theorem no_newline_line (r : Record) (hn : '\n' ∉ r.name) :
    '\n' ∉ r.name ++ ',' :: intToChars r.goals := by
  intro hm
  rcases List.mem_append.mp hm with hm | hm
  · exact hn hm
  · rcases List.mem_cons.mp hm with hm | hm
    · exact absurd hm (by decide)
    · exact no_newline_intToChars r.goals hm

theorem line_ne_nil (nm X : List Char) : nm ++ ',' :: X ≠ [] := by
  cases nm <;> simp

/-- The serialized body of a clean record parses back as the record. -/
theorem parseLine_serializeBody (r : Record) (hc : ',' ∉ r.name) :
    parseLine (r.name ++ ',' :: intToChars r.goals) = r := by
  rw [parseLine_split r.name (intToChars r.goals) hc, intToChars_roundTrip r.goals]

/-- Reading back a serialized list of clean records yields the same records. -/
theorem displayPlayers_serializeAll :
    ∀ (recs : List Record), (∀ r ∈ recs, ',' ∉ r.name ∧ '\n' ∉ r.name) →
      displayPlayers (serializeAll recs) = recs := by
  intro recs
  induction recs with
  | nil => intro _; rfl
  | cons r rs ih =>
    intro h
    obtain ⟨hc, hn⟩ := h r (List.mem_cons_self r rs)
    have hline : '\n' ∉ r.name ++ ',' :: intToChars r.goals := no_newline_line r hn
    have hsplit : splitLines (serializeAll (r :: rs)) =
        (r.name ++ ',' :: intToChars r.goals) :: splitLines (serializeAll rs) := by
      rw [show serializeAll (r :: rs) = serializeRec r ++ serializeAll rs from rfl,
        serializeRec_line r, List.append_assoc, List.singleton_append]
      exact splitLines_line _ hline (serializeAll rs)
    simp only [displayPlayers, hsplit, List.filter_cons,
      isEmpty_false_of_ne_nil (line_ne_nil r.name (intToChars r.goals)), Bool.not_false,
      if_pos trivial, List.map_cons, parseLine_serializeBody r hc]
    have := ih (fun x hx => h x (List.mem_cons_of_mem r hx))
    simp only [displayPlayers] at this
    rw [this]

/-- Every record read back from a file has a comma-free, newline-free name. -/
theorem displayPlayers_clean (content : List Char) (r : Record)
    (hr : r ∈ displayPlayers content) : ',' ∉ r.name ∧ '\n' ∉ r.name := by
  simp only [displayPlayers, List.mem_map] at hr
  obtain ⟨l, hl, hpl⟩ := hr
  have hlmem : l ∈ splitLines content := List.mem_of_mem_filter hl
  have hnn : '\n' ∉ l := no_newline_mem_splitLines hlmem
  subst hpl
  constructor
  · intro hm
    simp only [parseLine, nameOfLine] at hm
    obtain ⟨hp, _⟩ := mem_of_mem_takeWhile hm
    simp at hp
  · intro hm
    simp only [parseLine, nameOfLine] at hm
    obtain ⟨_, hmem⟩ := mem_of_mem_takeWhile hm
    exact hnn hmem

/-! ### Rewrite and upsert facts -/

theorem drop_length_append {α : Type} (l₁ l₂ : List α) : (l₁ ++ l₂).drop l₁.length = l₂ := by
  induction l₁ with
  | nil => rfl
  | cons a t ih =>
    rw [List.cons_append, List.length_cons, List.drop_succ_cons]
    exact ih

/-- When the new content covers the old, the missing truncation is harmless. -/
theorem overwriteNoTrunc_of_le (old new : List Char) (h : old.length ≤ new.length) :
    overwriteNoTrunc old new = new := by
  rw [overwriteNoTrunc, List.drop_eq_nil_of_le h, List.append_nil]

theorem updateAll_of_not_found (recs : List Record) (nm : List Char) (g : Int)
    (h : foundIn recs nm = false) : updateAll recs nm g = recs := by
  induction recs with
  | nil => rfl
  | cons r rs ih =>
    simp only [foundIn, List.any_cons, Bool.or_eq_false_iff] at h
    obtain ⟨h1, h2⟩ := h
    have h1' : ¬r.name = nm := by simpa using h1
    simp only [updateAll, List.map_cons, if_neg h1']
    rw [show List.map (fun r => if r.name = nm then { r with goals := g } else r) rs
      = updateAll rs nm g from rfl, ih h2]

theorem upsertRecs_found (recs : List Record) (nm : List Char) (g : Int)
    (h : foundIn recs nm = true) : upsertRecs recs nm g = updateAll recs nm g := by
  simp [upsertRecs, h]

theorem upsertRecs_not_found (recs : List Record) (nm : List Char) (g : Int)
    (h : foundIn recs nm = false) : upsertRecs recs nm g = recs ++ [⟨nm, g⟩] := by
  simp [upsertRecs, h, updateAll_of_not_found recs nm g h]

theorem updateAll_getElem_ne :
    ∀ (recs : List Record) (nm : List Char) (g : Int) (i : Nat) (r : Record),
      recs[i]? = some r → r.name ≠ nm → (updateAll recs nm g)[i]? = some r := by
  intro recs nm g
  induction recs with
  | nil => intro i r h; simp at h
  | cons a t ih =>
    intro i r h hne
    cases i with
    | zero =>
      rw [List.getElem?_cons_zero, Option.some_inj] at h
      subst h
      simp [updateAll, if_neg hne]
    | succ j =>
      rw [List.getElem?_cons_succ] at h
      simp only [updateAll, List.map_cons, List.getElem?_cons_succ]
      exact ih j r h hne

theorem getElem?_append_left_of_some :
    ∀ (l₁ l₂ : List Record) (i : Nat) (r : Record),
      l₁[i]? = some r → (l₁ ++ l₂)[i]? = some r := by
  intro l₁
  induction l₁ with
  | nil => intro l₂ i r h; simp at h
  | cons a t ih =>
    intro l₂ i r h
    cases i with
    | zero =>
      rw [List.getElem?_cons_zero] at h
      rw [List.cons_append, List.getElem?_cons_zero]
      exact h
    | succ j =>
      rw [List.getElem?_cons_succ] at h
      rw [List.cons_append, List.getElem?_cons_succ]
      exact ih l₂ j r h

theorem splitLines_joinLines : ∀ (ls : List (List Char)), (∀ l ∈ ls, '\n' ∉ l) →
    splitLines (joinLines ls) = ls := by
  intro ls
  induction ls with
  | nil => intro _; rfl
  | cons l t ih =>
    intro h
    rw [show joinLines (l :: t) = l ++ '\n' :: joinLines t from rfl,
      splitLines_line l (h l (List.mem_cons_self l t)) (joinLines t),
      ih (fun x hx => h x (List.mem_cons_of_mem l hx))]

/-- `appendAll` is serialization appended to the existing content. -/
theorem appendAll_eq : ∀ (recs : List Record) (c : List Char),
    appendAll c recs = c ++ serializeAll recs := by
  intro recs
  induction recs with
  | nil => intro c; simp [appendAll, serializeAll]
  | cons r rs ih =>
    intro c
    rw [show appendAll c (r :: rs) = appendAll (addPlayer c r.name r.goals) rs from rfl, ih]
    simp [addPlayer, serializeAll]

/-- Appending one clean record to newline-terminated content adds exactly one
record at the end of the read-back sequence. -/
theorem displayPlayers_append (c : List Char) (r : Record)
    (hterm : nlTerminated c = true) (hc : ',' ∉ r.name) (hn : '\n' ∉ r.name) :
    displayPlayers (addPlayer c r.name r.goals) = displayPlayers c ++ [r] := by
  rw [addPlayer, show (⟨r.name, r.goals⟩ : Record) = r from rfl]
  have hone : splitLines (serializeRec r) = [r.name ++ ',' :: intToChars r.goals] := by
    rw [serializeRec_line r]
    rw [splitLines_line _ (no_newline_line r hn) []]
    rfl
  simp only [displayPlayers, splitLines_append_of_nlTerminated c (serializeRec r) hterm,
    List.filter_append, List.map_append, hone, List.filter_cons,
    isEmpty_false_of_ne_nil (line_ne_nil r.name (intToChars r.goals)), Bool.not_false,
    if_pos trivial, List.filter_nil, List.map_cons, List.map_nil,
    parseLine_serializeBody r hc]

theorem mem_of_getElem?_some :
    ∀ (l : List Record) (i : Nat) (r : Record), l[i]? = some r → r ∈ l := by
  intro l
  induction l with
  | nil => intro i r h; simp at h
  | cons a t ih =>
    intro i r h
    cases i with
    | zero =>
      rw [List.getElem?_cons_zero, Option.some_inj] at h
      subst h
      exact List.mem_cons_self a t
    | succ j =>
      rw [List.getElem?_cons_succ] at h
      exact List.mem_cons_of_mem a (ih j r h)

theorem foundIn_of_mem {recs : List Record} {r : Record} {nm : List Char}
    (hr : r ∈ recs) (hname : r.name = nm) : foundIn recs nm = true := by
  simp only [foundIn, List.any_eq_true]
  exact ⟨r, hr, by simp [hname]⟩

theorem updateAll_getElem_eq :
    ∀ (recs : List Record) (nm : List Char) (g : Int) (i : Nat) (r : Record),
      recs[i]? = some r → r.name = nm → (updateAll recs nm g)[i]? = some ⟨nm, g⟩ := by
  intro recs nm g
  induction recs with
  | nil => intro i r h; simp at h
  | cons a t ih =>
    intro i r h heq
    cases i with
    | zero =>
      rw [List.getElem?_cons_zero, Option.some_inj] at h
      subst h
      simp [updateAll, if_pos heq, heq]
    | succ j =>
      rw [List.getElem?_cons_succ] at h
      simp only [updateAll, List.map_cons, List.getElem?_cons_succ]
      exact ih j r h heq

theorem getLast?_append_single (l : List Record) (r : Record) :
    (l ++ [r]).getLast? = some r := by
  induction l with
  | nil => rfl
  | cons a t ih =>
    rw [List.cons_append, List.getLast?_cons, ih]
    rfl

/-! ### Claims -/

/-- Claim C1 (code bug): the claim says the rewritten file contains exactly the
final in-memory sequence and nothing else, with no trailing leftover bytes from
a previously longer file.  The code seeks to position 0 and rewrites without
truncating, so a shrinking rewrite leaves old bytes behind.  At the failing
input — file `"Messi,100\n"`, `updatePlayer("Messi", 5)` — the intended content
is `"Messi,5\n"` but the file ends up `"Messi,5\n0\n"`, whose leftover re-parses
as a spurious record `("0", 0)`. -/
theorem updatePlayer_leftover_of_shorter_rewrite :
    updatePlayer (("Messi,100\n").data) (("Messi").data) 5 = ("Messi,5\n0\n").data ∧
    serializeAll (upsertRecs (displayPlayers (("Messi,100\n").data)) (("Messi").data) 5) =
      ("Messi,5\n").data ∧
    updatePlayer (("Messi,100\n").data) (("Messi").data) 5 ≠
      serializeAll (upsertRecs (displayPlayers (("Messi,100\n").data)) (("Messi").data) 5) ∧
    displayPlayers (updatePlayer (("Messi,100\n").data) (("Messi").data) 5) =
      [⟨("Messi").data, 5⟩, ⟨("0").data, 0⟩] :=
  ⟨by decide, by decide, by decide, by decide⟩

/-- Claim C2: for every store state and target name, the upsert pass sets the
goal count to the new value for EVERY record whose name equals the target
exactly — pointwise `map` over the sequence — and, when at least one record
matched, the length is unchanged, so no insertion occurs. -/
theorem upsert_updates_all_matching (recs : List Record) (nm : List Char) (g : Int)
    (h : foundIn recs nm = true) :
    upsertRecs recs nm g = recs.map (fun r => if r.name = nm then ⟨r.name, g⟩ else r) ∧
    (upsertRecs recs nm g).length = recs.length := by
  constructor
  · rw [upsertRecs_found recs nm g h]; rfl
  · rw [upsertRecs_found recs nm g h]; simp [updateAll]

/-- Witness for C2 at the duplicate-name example of the spec: two records named
"Dup" with goals 1 and 2 both become goals 5, and nothing is inserted. -/
theorem upsert_updates_all_matching_witness :
    upsertRecs [⟨("Dup").data, 1⟩, ⟨("Dup").data, 2⟩] (("Dup").data) 5 =
      [⟨("Dup").data, 5⟩, ⟨("Dup").data, 5⟩] ∧
    (upsertRecs [⟨("Dup").data, 1⟩, ⟨("Dup").data, 2⟩] (("Dup").data) 5).length = 2 := by
  have h := upsert_updates_all_matching [⟨("Dup").data, 1⟩, ⟨("Dup").data, 2⟩]
    (("Dup").data) 5 (by decide)
  exact ⟨h.1.trans (by decide), h.2.trans (by decide)⟩

/-- Claim C3 (counterexample): the round trip fails as universally stated,
because a name containing the delimiter is re-parsed at its first comma:
appending the record `("a,b", 5)` reads back as `("a", 0)`. -/
theorem append_roundtrip_fails_on_delimiter_name :
    displayPlayers (appendAll [] [⟨("a,b").data, 5⟩]) = [⟨("a").data, 0⟩] ∧
    displayPlayers (appendAll [] [⟨("a,b").data, 5⟩]) ≠ [⟨("a,b").data, 5⟩] :=
  ⟨by decide, by decide⟩

/-- Claim C3 (amended): for any sequence of records whose names contain neither
the comma delimiter nor a newline, writing them via repeated append and then
listing returns the same records, in the same order, with identical
(name, goals) pairs. -/
theorem append_roundtrip_clean_names (recs : List Record)
    (h : ∀ r ∈ recs, ',' ∉ r.name ∧ '\n' ∉ r.name) :
    displayPlayers (appendAll [] recs) = recs := by
  rw [appendAll_eq recs [], List.nil_append]
  exact displayPlayers_serializeAll recs h

/-- Witness for C3 at a concrete two-record sequence (goals include a negative
value). -/
theorem append_roundtrip_clean_names_witness :
    displayPlayers (appendAll [] [⟨("Alex Morgan").data, 8⟩, ⟨("Neg").data, -3⟩]) =
      [⟨("Alex Morgan").data, 8⟩, ⟨("Neg").data, -3⟩] :=
  append_roundtrip_clean_names [⟨("Alex Morgan").data, 8⟩, ⟨("Neg").data, -3⟩] (by decide)

/-- Claim C4 (counterexample): with file `"A,1xxxxxxxxxx\n"` (a store without
"B") the upsert of `("B", 2)` reports inserted, but the missing truncation
leaves the leftover `"xxxxx\n"` after the rewritten lines, so a subsequent list
ends with the spurious record `("xxxxx", 0)` — the inserted record is NOT the
last entry. -/
theorem upsert_insert_not_last_on_leftover :
    upsertOutcomeUpdated (("A,1xxxxxxxxxx\n").data) (("B").data) = false ∧
    displayPlayers (updatePlayer (("A,1xxxxxxxxxx\n").data) (("B").data) 2) =
      [⟨("A").data, 1⟩, ⟨("B").data, 2⟩, ⟨("xxxxx").data, 0⟩] ∧
    (displayPlayers (updatePlayer (("A,1xxxxxxxxxx\n").data) (("B").data) 2)).getLast? ≠
      some ⟨("B").data, 2⟩ :=
  ⟨by decide, by decide, by decide⟩

/-- Claim C4 (amended): when no record's name equals the target, upsert appends
`Record(name, newGoals)` at the end of the in-memory sequence and reports
inserted; and provided the name is delimiter- and newline-free and the rewritten
serialization is at least as long as the prior file content (so the missing
truncation leaves no leftover bytes), a subsequent list returns the old records
followed by the new one, which is the last entry. -/
theorem upsert_insert_appends_last (c nm : List Char) (g : Int)
    (hf : foundIn (displayPlayers c) nm = false)
    (hc : ',' ∉ nm) (hn : '\n' ∉ nm)
    (hlen : c.length ≤ (serializeAll (displayPlayers c ++ [⟨nm, g⟩])).length) :
    upsertRecs (displayPlayers c) nm g = displayPlayers c ++ [⟨nm, g⟩] ∧
    upsertOutcomeUpdated c nm = false ∧
    displayPlayers (updatePlayer c nm g) = displayPlayers c ++ [⟨nm, g⟩] ∧
    (displayPlayers (updatePlayer c nm g)).getLast? = some ⟨nm, g⟩ := by
  have h1 : upsertRecs (displayPlayers c) nm g = displayPlayers c ++ [⟨nm, g⟩] :=
    upsertRecs_not_found _ nm g hf
  have hclean : ∀ r ∈ displayPlayers c ++ [⟨nm, g⟩], ',' ∉ r.name ∧ '\n' ∉ r.name := by
    intro r hr
    rcases List.mem_append.mp hr with hr | hr
    · exact displayPlayers_clean c r hr
    · simp only [List.mem_singleton] at hr; subst hr; exact ⟨hc, hn⟩
  have h2 : displayPlayers (updatePlayer c nm g) = displayPlayers c ++ [⟨nm, g⟩] := by
    rw [updatePlayer, h1, overwriteNoTrunc_of_le c _ hlen]
    exact displayPlayers_serializeAll _ hclean
  refine ⟨h1, hf, h2, ?_⟩
  rw [h2]
  exact getLast?_append_single _ _

/-- Witness for C4 at the spec's example: a store without "Alex Morgan"
receives it as the last entry. -/
theorem upsert_insert_appends_last_witness :
    displayPlayers (updatePlayer (("Messi,12\n").data) (("Alex Morgan").data) 8) =
      [⟨("Messi").data, 12⟩, ⟨("Alex Morgan").data, 8⟩] ∧
    (displayPlayers (updatePlayer (("Messi,12\n").data) (("Alex Morgan").data) 8)).getLast? =
      some ⟨("Alex Morgan").data, 8⟩ := by
  have h := upsert_insert_appends_last (("Messi,12\n").data) (("Alex Morgan").data) 8
    (by decide) (by decide) (by decide) (by decide)
  exact ⟨h.2.2.1.trans (by decide), h.2.2.2⟩

/-- Claim C5: the bootstrap is idempotent — against a non-existent path the
constructor creates the backing file holding exactly the three seed records
(Messi,12 / Rapinoe,9 / Ronaldo,10), and running it again on any existing
content leaves that content unchanged. -/
theorem ensureFileExists_idempotent_seeds :
    ensureFileExists none = some seedContent ∧
    displayPlayers seedContent =
      [⟨("Messi").data, 12⟩, ⟨("Rapinoe").data, 9⟩, ⟨("Ronaldo").data, 10⟩] ∧
    (∀ c, ensureFileExists (some c) = some c) ∧
    (∀ fs, ensureFileExists (ensureFileExists fs) = ensureFileExists fs) := by
  refine ⟨rfl, by decide, fun c => rfl, fun fs => ?_⟩
  cases fs <;> rfl

/-- Claim C6 (counterexample): a whitespace-only line is NOT empty, so the
`line.empty()` guard does not skip it — it parses as a record whose name is the
whitespace and whose goal count defaults to 0, contrary to the claim that
every line empty after trimming produces no record. -/
theorem whitespace_line_not_skipped :
    displayPlayers (("A,1\n \nB,2\n").data) =
      [⟨("A").data, 1⟩, ⟨(" ").data, 0⟩, ⟨("B").data, 2⟩] ∧
    displayPlayers (("A,1\n \nB,2\n").data) ≠ [⟨("A").data, 1⟩, ⟨("B").data, 2⟩] :=
  ⟨by decide, by decide⟩

/-- Claim C6 (amended): the read loop goes line by line in file order and skips
exactly the lines that are empty (zero characters).  Truly blank lines
interspersed between valid lines produce no records and the remaining lines are
parsed in order; a whitespace-only line is not skipped. -/
theorem displayPlayers_skips_exactly_empty_lines (ls : List (List Char))
    (h : ∀ l ∈ ls, '\n' ∉ l) :
    displayPlayers (joinLines ls) = (ls.filter (fun l => !l.isEmpty)).map parseLine := by
  rw [displayPlayers, splitLines_joinLines ls h]

/-- Witness for C6 on a file with an empty line and a whitespace-only line. -/
theorem displayPlayers_skips_exactly_empty_lines_witness :
    displayPlayers (joinLines [("A,1").data, [], (" ").data, ("B,2").data]) =
      [⟨("A").data, 1⟩, ⟨(" ").data, 0⟩, ⟨("B").data, 2⟩] :=
  (displayPlayers_skips_exactly_empty_lines [("A,1").data, [], (" ").data, ("B,2").data]
    (by decide)).trans (by decide)

/-- Claim C7: the line parser takes the name as everything before the first
delimiter (the whole line when no delimiter is present, in which case the goal
count defaults to 0), reads the goal count from the remainder while ignoring
trailing non-numeric content after the digits, and surfaces no error: every
line yields a record. -/
theorem parseLine_spec (nm rest ds junk : List Char)
    (h1 : ',' ∉ nm)
    (h2 : ∀ c ∈ ds, isDigit c = true) (h3 : ds ≠ [])
    (h4 : ∀ c, junk.head? = some c → isDigit c = false) :
    parseLine (nm ++ ',' :: rest) = ⟨nm, parseIntStream rest⟩ ∧
    parseLine nm = ⟨nm, 0⟩ ∧
    parseIntStream (ds ++ junk) = (digitsVal ds : Int) ∧
    parseIntStream (ds ++ junk) = parseIntStream ds ∧
    parseIntStream [] = 0 := by
  refine ⟨parseLine_split nm rest h1, parseLine_no_comma nm h1,
    parseIntStream_digits ds junk h2 h3 h4, ?_, rfl⟩
  rw [parseIntStream_digits ds junk h2 h3 h4]
  have hnil := parseIntStream_digits ds [] h2 h3 (by intro c hc; simp at hc)
  rw [List.append_nil] at hnil
  exact hnil.symm

/-- Witness for C7: a line with trailing junk after the number, and a line
without any delimiter. -/
theorem parseLine_spec_witness :
    parseLine (("Messi").data ++ ',' :: ("12abc").data) =
      ⟨("Messi").data, parseIntStream (("12abc").data)⟩ ∧
    parseLine (("NoDelim").data) = ⟨("NoDelim").data, 0⟩ ∧
    parseIntStream (("12").data ++ ("abc").data) = (digitsVal (("12").data) : Int) := by
  have h := parseLine_spec (("Messi").data) (("12abc").data) (("12").data) (("abc").data)
    (by decide) (by decide) (by decide) (by decide)
  have h' := parseLine_spec (("NoDelim").data) [] (("1").data) []
    (by decide) (by decide) (by decide) (by decide)
  exact ⟨h.1, h'.2.1, h.2.2.1⟩

/-- Claim C8: when the backing medium cannot be opened, each of list, append
and upsert reports the failure, aborts with no partial effect, leaves the
existing bytes unchanged, and list additionally yields an empty sequence. -/
theorem open_failure_no_effect (m : Medium) (nm : List Char) (g : Int)
    (h : m.openable = false) :
    listOp m = (false, []) ∧ addOp m nm g = (false, m) ∧ updateOp m nm g = (false, m) := by
  refine ⟨?_, ?_, ?_⟩ <;> simp [listOp, addOp, updateOp, h]

/-- Witness for C8 on an unopenable medium holding one record line. -/
theorem open_failure_no_effect_witness :
    listOp ⟨false, ("Messi,12\n").data⟩ = (false, []) ∧
    addOp ⟨false, ("Messi,12\n").data⟩ (("Alex").data) 8 =
      (false, ⟨false, ("Messi,12\n").data⟩) ∧
    updateOp ⟨false, ("Messi,12\n").data⟩ (("Alex").data) 8 =
      (false, ⟨false, ("Messi,12\n").data⟩) :=
  open_failure_no_effect ⟨false, ("Messi,12\n").data⟩ (("Alex").data) 8 rfl

/-- Claim C9 (frame): upsert leaves every record whose name differs from the
target unchanged at its position (same name, same goals, same relative order),
rewrites every matching position with the new goal count, and the only possible
addition is the single inserted record at the very end (present exactly when
nothing matched). -/
theorem upsert_frame_preserves_others (recs : List Record) (nm : List Char) (g : Int) :
    (∀ (i : Nat) (r : Record),
      recs[i]? = some r → r.name ≠ nm → (upsertRecs recs nm g)[i]? = some r) ∧
    (∀ (i : Nat) (r : Record),
      recs[i]? = some r → r.name = nm → (upsertRecs recs nm g)[i]? = some ⟨nm, g⟩) ∧
    (upsertRecs recs nm g).drop recs.length =
      (if foundIn recs nm = true then [] else [⟨nm, g⟩]) := by
  refine ⟨?_, ?_, ?_⟩
  · intro i r hi hne
    by_cases hf : foundIn recs nm = true
    · rw [upsertRecs_found recs nm g hf]
      exact updateAll_getElem_ne recs nm g i r hi hne
    · rw [upsertRecs_not_found recs nm g (Bool.not_eq_true _ ▸ hf)]
      exact getElem?_append_left_of_some recs [⟨nm, g⟩] i r hi
  · intro i r hi heq
    have hf : foundIn recs nm = true :=
      foundIn_of_mem (mem_of_getElem?_some recs i r hi) heq
    rw [upsertRecs_found recs nm g hf]
    exact updateAll_getElem_eq recs nm g i r hi heq
  · by_cases hf : foundIn recs nm = true
    · rw [upsertRecs_found recs nm g hf, if_pos hf]
      have hlen : (updateAll recs nm g).length = recs.length := by simp [updateAll]
      rw [← hlen, List.drop_length]
    · have hf' : foundIn recs nm = false := Bool.not_eq_true _ ▸ hf
      rw [upsertRecs_not_found recs nm g hf', if_neg hf]
      exact drop_length_append recs [⟨nm, g⟩]

/-- Witness for C9: upserting "B" in a store [("A",1), ("B",2)] leaves ("A",1)
in place at index 0, rewrites index 1, and adds nothing at the end. -/
theorem upsert_frame_preserves_others_witness :
    (upsertRecs [⟨("A").data, 1⟩, ⟨("B").data, 2⟩] (("B").data) 7)[0]? =
      some ⟨("A").data, 1⟩ ∧
    (upsertRecs [⟨("A").data, 1⟩, ⟨("B").data, 2⟩] (("B").data) 7)[1]? =
      some ⟨("B").data, 7⟩ ∧
    (upsertRecs [⟨("A").data, 1⟩, ⟨("B").data, 2⟩] (("B").data) 7).drop 2 = [] := by
  have h := upsert_frame_preserves_others [⟨("A").data, 1⟩, ⟨("B").data, 2⟩] (("B").data) 7
  refine ⟨h.1 0 ⟨("A").data, 1⟩ (by decide) (by decide),
    h.2.1 1 ⟨("B").data, 2⟩ (by decide) (by decide), ?_⟩
  have h3 := h.2.2
  have e : ([⟨("A").data, 1⟩, ⟨("B").data, 2⟩] : List Record).length = 2 := by decide
  rw [e] at h3
  rw [h3]
  decide

/-- Claim C10: for every integer goal count, including negative values, an
append followed by a list yields a record whose goal count equals the written
value exactly — the writer formats any signed decimal and the parser accepts a
leading minus sign (stated for a delimiter- and newline-free name and
newline-terminated prior content, the shape all program-written files have). -/
theorem append_list_roundtrip_any_int (c nm : List Char) (g : Int)
    (hterm : nlTerminated c = true) (hc : ',' ∉ nm) (hn : '\n' ∉ nm) :
    displayPlayers (addPlayer c nm g) = displayPlayers c ++ [⟨nm, g⟩] :=
  displayPlayers_append c ⟨nm, g⟩ hterm hc hn

/-- Witness for C10 with a negative goal count. -/
theorem append_list_roundtrip_any_int_witness :
    displayPlayers (addPlayer (("Messi,12\n").data) (("Neg").data) (-3)) =
      [⟨("Messi").data, 12⟩, ⟨("Neg").data, -3⟩] :=
  (append_list_roundtrip_any_int (("Messi,12\n").data) (("Neg").data) (-3)
    (by decide) (by decide) (by decide)).trans (by decide)

end Soccer
